import Mathlib

/-!
Verification of the tree-transformation core of `html_dom_visualize`
(`src/html_dom_visualize/visualizer.py`): branch filtering
(`_filter_branches`), subtree masking (`_mask_elements`), flattening
(`traverse` inside `_plot_dom_treemap`) and the text wrapper
(`_add_line_breaks`), over a shallow embedding of the BeautifulSoup
DOM tree.
-/

/-- A DOM node: an element (`Tag`) with a tag name, an attribute mapping
(dict, embedded as an association list with unique keys) and ordered
children, or an uninterpreted text/comment node (`NavigableString`/`Comment`). -/
inductive Node where
  | elem (name : String) (attrs : List (String × String)) (children : List Node)
  | text (s : String)

/-- Whether the node is an element (`isinstance(child, Tag)` in the source;
for the `traverse` guard `if child.name:` this is the same test, since
`NavigableString.name` is `None` and a Tag name is truthy). -/
def Node.isElem : Node → Bool
  | .elem _ _ _ => true
  | .text _ => false

/-- Python dict lookup on the attribute mapping: first binding of the key. -/
def getAttr (attrs : List (String × String)) (k : String) : Option String :=
  match attrs with
  | [] => none
  | (k1, v1) :: rest => if k1 = k then some v1 else getAttr rest k

/-- Python dict membership test `k in attrs`. -/
def hasAttr (attrs : List (String × String)) (k : String) : Bool :=
  (getAttr attrs k).isSome

/-- Python dict assignment `attrs[k] = v`: overwrite the binding in place if
the key is present, otherwise append it at the end. -/
def setAttr (attrs : List (String × String)) (k v : String) : List (String × String) :=
  match attrs with
  | [] => [(k, v)]
  | (k1, v1) :: rest => if k1 = k then (k, v) :: rest else (k1, v1) :: setAttr rest k v

mutual

/-- Shallow embedding of `_filter_branches` (visualizer.py lines 110-152).
The Python mutates the tree in place and returns a bool; here the mutated
node is returned together with that bool.  `keep (.elem ..)` is
`branch_filter(node)`; a node matching the filter is kept with its whole
subtree untouched; an element with no children (text children included in
the count, as in `list(node.children)`) that fails the filter reports
`False`; otherwise each Tag child is recursively filtered and decomposed
when it reports `False`, and the node reports whether some child survived. -/
def filter_branches (keep : Node → Bool) : Node → Node × Bool
  | .text s => (.text s, false)
  | .elem nm ats ch =>
    if keep (.elem nm ats ch) then (.elem nm ats ch, true)
    else if ch.isEmpty then (.elem nm ats ch, false)
    else
      let p := filterChildrenList keep ch
      (.elem nm ats p.1, p.2)

/-- The `for child in children` loop of `_filter_branches`: Tag children are
recursively filtered and dropped (`child.decompose()`) when they report
`False`; non-Tag children are passed over; `should_keep` is true when some
Tag child reported `True`. -/
def filterChildrenList (keep : Node → Bool) : List Node → List Node × Bool
  | [] => ([], false)
  | c :: cs =>
    let rest := filterChildrenList keep cs
    match c with
    | .text s => (Node.text s :: rest.1, rest.2)
    | .elem nm ats ch =>
      let q := filter_branches keep (.elem nm ats ch)
      if q.2 then (q.1 :: rest.1, true) else (rest.1, rest.2)

end

/-- The tree left behind by a top-level `_filter_branches(soup, keep)` call:
the caller ignores the returned bool, so the root always remains. -/
def filterTree (keep : Node → Bool) (n : Node) : Node :=
  (filter_branches keep n).1

mutual

/-- Shallow embedding of `_mask_elements` (visualizer.py lines 155-187).
If `should_mask(node)` holds, `mask_fn(node)` is computed on the untouched
node, stored under the `el-mask` attribute, and every Tag child is
decomposed (non-Tag children stay); otherwise the Tag children are masked
recursively. -/
def mask_elements (shouldMask : Node → Bool) (maskFn : Node → String) : Node → Node
  | .text s => .text s
  | .elem nm ats ch =>
    if shouldMask (.elem nm ats ch) then
      .elem nm (setAttr ats "el-mask" (maskFn (.elem nm ats ch)))
        (ch.filter (fun c => !c.isElem))
    else
      .elem nm ats (maskChildrenList shouldMask maskFn ch)

/-- The recursion loop of `_mask_elements` over the children: Tag children
are masked recursively, non-Tag children are passed over unchanged. -/
def maskChildrenList (shouldMask : Node → Bool) (maskFn : Node → String) :
    List Node → List Node
  | [] => []
  | c :: cs =>
    (if c.isElem then mask_elements shouldMask maskFn c else c)
      :: maskChildrenList shouldMask maskFn cs

end

/-- The single-quote character, used by Python `str()` on dicts. -/
def squote : String := String.singleton (Char.ofNat 39)

/-- Python `str(attrs)` on the attribute dict, as used for the default hover
text in `traverse`: braces around comma-separated key: value pairs, keys
and values each wrapped in single quotes. -/
def dictStr (attrs : List (String × String)) : String :=
  "\x7b" ++ String.intercalate ", "
    (attrs.map (fun kv => squote ++ kv.1 ++ squote ++ ": " ++ squote ++ kv.2 ++ squote)) ++ "\x7d"

mutual

/-- Modelled from the spec: Python `str(node)` on a BeautifulSoup Tag — the
serialization used by `default_mask_fn` — is library code outside this
repository; per spec section 4.3 it is the canonical
open/close-tag-with-attributes form with all nested content verbatim:
`<name k="v" ...>children</name>`, a text node rendering as its text. -/
def serializeNode : Node → String
  | .text s => s
  | .elem nm ats ch =>
    "<" ++ nm
      ++ String.join (ats.map (fun kv => " " ++ kv.1 ++ "=\"" ++ kv.2 ++ "\""))
      ++ ">" ++ serializeList ch ++ "</" ++ nm ++ ">"

/-- Serialization of a child sequence, in order. -/
def serializeList : List Node → String
  | [] => ""
  | c :: cs => serializeNode c ++ serializeList cs

end

/-- Shallow embedding of `default_mask_fn` (visualizer.py lines 94-97):
`href: ` plus the `href` attribute (default `N/A`) for an `a` tag,
`str(node)` otherwise. -/
def default_mask_fn (n : Node) : String :=
  match n with
  | .elem "a" ats _ => "href: " ++ (getAttr ats "href").getD "N/A"
  | _ => serializeNode n

/-- Python single-space join of a word list. -/
def joinWords : List String → String
  | [] => ""
  | [w] => w
  | w :: ws => w ++ " " ++ joinWords ws

/-- Character loop behind Python `text.split()`: split on runs of whitespace,
discarding empty pieces.  `acc` holds the characters of the word currently
being read, in reverse. -/
def splitAux : List Char → List Char → List String
  | [], acc => if acc.isEmpty then [] else [String.mk acc.reverse]
  | c :: cs, acc =>
    if c.isWhitespace then
      if acc.isEmpty then splitAux cs [] else String.mk acc.reverse :: splitAux cs []
    else
      splitAux cs (c :: acc)

/-- Python `text.split()` (no argument: split on whitespace, drop empties). -/
def pySplit (s : String) : List String :=
  splitAux s.data []

/-- The loop state of `_add_line_breaks`: completed lines (kept as word
lists; the `<br />` marker is appended when rendering), the current line,
and the running `current_length` counter. -/
structure WrapState where
  result : List (List String)
  currentLine : List String
  currentLength : Nat

/-- One iteration of the `for word in text.split()` loop of
`_add_line_breaks` (visualizer.py lines 244-251): on overflow the current
line is flushed and the word opens a new line whose counter is `len(word)`;
otherwise the word joins the line and the counter grows by `len(word) + 1`. -/
def wrapStep (limit : Nat) (st : WrapState) (word : String) : WrapState :=
  if st.currentLength + word.length > limit then
    ⟨st.result ++ [st.currentLine], [word], word.length⟩
  else
    ⟨st.result, st.currentLine ++ [word], st.currentLength + word.length + 1⟩

/-- The final loop state of `_add_line_breaks` on a given word list. -/
def wrapRun (limit : Nat) (ws : List String) : WrapState :=
  ws.foldl (wrapStep limit) ⟨[], [], 0⟩

/-- The output lines of `_add_line_breaks` as word lists: the flushed lines
plus the final `current_line` when nonempty. -/
def wrapLines (limit : Nat) (ws : List String) : List (List String) :=
  let st := wrapRun limit ws
  st.result ++ (if st.currentLine.isEmpty then [] else [st.currentLine])

/-- Shallow embedding of `_add_line_breaks` (visualizer.py lines 239-256):
flushed lines are rendered as the space-joined line followed by the
marker `<br />`, the final line is rendered without the marker, and
everything is joined with single spaces. -/
def add_line_breaks (text : String) (limit : Nat := 120) : String :=
  let st := wrapRun limit (pySplit text)
  joinWords (st.result.map (fun l => joinWords l ++ "<br />")
    ++ (if st.currentLine.isEmpty then [] else [joinWords st.currentLine]))

/-- Little-endian decimal digits of `n`, fuel-structured so that it reduces
in the kernel; `fuel > n` suffices. -/
def natDigits : Nat → Nat → List Nat
  | 0, _ => []
  | f + 1, n => if n < 10 then [n] else n % 10 :: natDigits f (n / 10)

/-- The decimal digit character for `d < 10`. -/
def digitCh (d : Nat) : Char :=
  match d with
  | 0 => Char.ofNat 48 | 1 => Char.ofNat 49 | 2 => Char.ofNat 50
  | 3 => Char.ofNat 51 | 4 => Char.ofNat 52 | 5 => Char.ofNat 53
  | 6 => Char.ofNat 54 | 7 => Char.ofNat 55 | 8 => Char.ofNat 56
  | 9 => Char.ofNat 57 | _ => Char.ofNat 42

/-- Decimal rendering of a natural number, the number part of the chart ids
(Python renders `id(element)` in decimal inside the f-string). -/
def natRepr (n : Nat) : String :=
  String.mk (((natDigits (n + 1) n).map digitCh).reverse)

/-- The chart record emitted by `traverse`: one entry of the four parallel
arrays `ids`, `labels`, `parents`, `hover_text`. -/
structure ChartRecord where
  id : String
  parentId : String
  label : String
  hoverText : String
deriving DecidableEq

/-- The node id `f"\x7belement.name\x7d_\x7bid(element)\x7d"`.  The Python
uses the CPython object identity `id(element)` — unique among the
simultaneously-live nodes of the traversal; following the spec (section 9)
this is embedded as a monotonically increasing visit counter. -/
def nodeIdOf (nm : String) (k : Nat) : String :=
  nm ++ "_" ++ natRepr k

mutual

/-- Shallow embedding of `traverse` inside `_plot_dom_treemap`
(visualizer.py lines 204-216): emit the record for the element (hover text
is the `el-mask` attribute when the key is present, otherwise
`str(element.attrs)`, both line-wrapped at the default 120), then recurse
into the children with `child.name` truthy, i.e. the Tag children.  The
counter `k` stands for the object identity (see `nodeIdOf`); it is threaded
through the traversal and the pair returns the next fresh value. -/
def traverse : Node → String → Nat → List ChartRecord × Nat
  | .text _, _, k => ([], k)
  | .elem nm ats ch, parentId, k =>
    let nodeId := nodeIdOf nm k
    let hover := add_line_breaks
      (match getAttr ats "el-mask" with
       | some v => v
       | none => dictStr ats)
    let rest := traverseList ch nodeId (k + 1)
    (⟨nodeId, parentId, nm, hover⟩ :: rest.1, rest.2)

/-- The `for child in element.children` loop of `traverse`: children with a
truthy `name` (the Tags) are traversed in order under the parent id. -/
def traverseList : List Node → String → Nat → List ChartRecord × Nat
  | [], _, k => ([], k)
  | c :: cs, parentId, k =>
    let p := traverse c parentId k
    let q := traverseList cs parentId p.2
    (p.1 ++ q.1, q.2)

end

/-- The record sequence produced by `_plot_dom_treemap` for a tree: the
Python calls `traverse(node, "")`. -/
def flattenTree (n : Node) : List ChartRecord :=
  (traverse n "" 0).1

mutual

/-- Whether some element in the subtree rooted at `n` (including `n`
itself) satisfies `keep`. -/
def hasMatch (keep : Node → Bool) : Node → Bool
  | .text _ => false
  | .elem nm ats ch =>
    keep (.elem nm ats ch) || (hasMatchList keep ch)

/-- `hasMatch` over a child list. -/
def hasMatchList (keep : Node → Bool) : List Node → Bool
  | [] => false
  | c :: cs => hasMatch keep c || hasMatchList keep cs

end

mutual

/-- Boolean check that every element of the tree satisfies `p`. -/
def allElems (p : Node → Bool) : Node → Bool
  | .text _ => true
  | .elem nm ats ch =>
    p (.elem nm ats ch) && allElemsList p ch

/-- `allElems` over a child list. -/
def allElemsList (p : Node → Bool) : List Node → Bool
  | [] => true
  | c :: cs => allElems p c && allElemsList p cs

end

/-- The check behind claim C1 as stated: every element of the tree either
itself satisfies `keep` or has a descendant element that does — i.e. every
element has a match in its own subtree. -/
def claimC1Check (keep : Node → Bool) (n : Node) : Bool :=
  allElems (fun e => hasMatch keep e) n

mutual

/-- Checker for the amended filter guarantee on a subtree: `cover` records
whether some strict ancestor (inside the filtered tree) satisfies `keep`;
every element must be covered by an ancestor, satisfy `keep` itself, or
have a matching descendant. -/
def survivorsOK (keep : Node → Bool) (cover : Bool) : Node → Bool
  | .text _ => true
  | .elem nm ats ch =>
    (cover || keep (.elem nm ats ch) || hasMatch keep (.elem nm ats ch))
      && survivorsOKList keep (cover || keep (.elem nm ats ch)) ch

/-- `survivorsOK` over a child list. -/
def survivorsOKList (keep : Node → Bool) (cover : Bool) : List Node → Bool
  | [] => true
  | c :: cs => survivorsOK keep cover c && survivorsOKList keep cover cs

end

/-- The amended filter guarantee for a whole tree: every non-root element
of the filtered tree is covered by a `keep`-satisfying ancestor, satisfies
`keep`, or has a matching descendant (the root itself is exempt: it always
remains as a container). -/
def filteredTreeOK (keep : Node → Bool) : Node → Bool
  | .text _ => true
  | .elem nm ats ch => survivorsOKList keep (keep (.elem nm ats ch)) ch

/-- The number of element children of a node. -/
def elemChildCount : Node → Nat
  | .text _ => 0
  | .elem _ _ ch => (ch.filter Node.isElem).length

/-- Sequential check used for claim C7: the `parentId` of every record is
already in `seen` or is the id of an earlier record; `seen` accumulates the
emitted ids. -/
def parentsOK : List ChartRecord → List String → Bool
  | [], _ => true
  | r :: rest, seen => decide (r.parentId ∈ seen) && parentsOK rest (r.id :: seen)

/-- The concrete tree of the spec scenario (section 8), the DOM of
`<html><body><div id="a"><span>x</span></div><p>y</p></body></html>`
handed to the core by the external parser. -/
def tree0 : Node :=
  .elem "html" [] [.elem "body" [] [
    .elem "div" [("id", "a")] [.elem "span" [] [.text "x"]],
    .elem "p" [] [.text "y"]]]

/-- The scenario predicate `shouldMask(n) = (n.tagName == "div")`. -/
def maskDiv : Node → Bool
  | .elem "div" _ _ => true
  | _ => false

/-- The scenario predicate `keep(n) = (n.tagName == "span")`. -/
def keepSpan : Node → Bool
  | .elem "span" _ _ => true
  | _ => false

/-- A mask predicate matching both a `div` and its `span` child, for the
mask non-inheritance scenario of spec section 8. -/
def maskDivSpan : Node → Bool
  | .elem "div" _ _ => true
  | .elem "span" _ _ => true
  | _ => false

/-- The attribute mapping of a node (empty for text nodes). -/
def Node.attrsOf : Node → List (String × String)
  | .elem _ ats _ => ats
  | .text _ => []

mutual

/-- The number of elements in the subtree rooted at `n`, `n` included. -/
def elemCount : Node → Nat
  | .text _ => 0
  | .elem _ _ ch => 1 + elemCountList ch

/-- `elemCount` summed over a child list. -/
def elemCountList : List Node → Nat
  | [] => 0
  | c :: cs => elemCount c + elemCountList cs

end

mutual

/-- The number of elements in the subtree rooted at `n` that carry the
`el-mask` attribute. -/
def maskedCount : Node → Nat
  | .text _ => 0
  | .elem _ ats ch => (if hasAttr ats "el-mask" then 1 else 0) + maskedCountList ch

/-- `maskedCount` summed over a child list. -/
def maskedCountList : List Node → Nat
  | [] => 0
  | c :: cs => maskedCount c + maskedCountList cs

end

/-- Whether a node does not carry the `el-mask` attribute (trees fed to the
pipeline from ordinary HTML satisfy this everywhere). -/
def noMaskAttr : Node → Bool
  | .elem _ ats _ => !(hasAttr ats "el-mask")
  | .text _ => true

/-- The check behind claim C5 as stated: every element carrying the
`el-mask` attribute has zero element children and a non-empty annotation. -/
def claimC5Check (n : Node) : Bool :=
  allElems (fun e =>
    match e with
    | .elem _ ats ch =>
      match getAttr ats "el-mask" with
      | some v => decide ((ch.filter Node.isElem).length = 0) && decide (v ≠ "")
      | none => true
    | .text _ => true) n

/-- The check behind claim C2 as stated: every output line of the wrapper
either fits the limit (words joined by single spaces) or is a single word
longer than the limit placed alone on its line. -/
def claimC2Check (limit : Nat) (ws : List String) : Bool :=
  (wrapLines limit ws).all (fun l =>
    decide ((joinWords l).length ≤ limit)
      || (decide (l.length = 1) && decide (limit < (joinWords l).length)))

/-- The amended per-line requirement for claim C2: the line is a single
word or its joined character count is at most `limit + 1`. -/
def lineOK (limit : Nat) (l : List String) : Bool :=
  decide (l.length = 1) || decide ((joinWords l).length ≤ limit + 1)

/-- The amended per-line bound for claim C2: every output line is a single
word or its joined character count is at most `limit + 1`. -/
def amendedC2Check (limit : Nat) (ws : List String) : Bool :=
  (wrapLines limit ws).all (lineOK limit)

/-- Invariant of the `_add_line_breaks` loop: flushed lines satisfy the
amended bound, and the running counter relates to the current line in one
of four ways — initial empty state; a line opened by an in-budget word,
whose counter overcounts its joined length by the one trailing space and
whose joined length fits `limit`; a line freshly opened by a flush, holding
one word of any length, with the counter missing the trailing space; or
such a flush-opened line extended by further words, whose counter equals
its joined length, bounded by `limit + 1`. -/
def wrapInv (limit : Nat) (st : WrapState) : Prop :=
  (∀ l ∈ st.result, lineOK limit l = true) ∧
  ((st.currentLine = [] ∧ st.currentLength = 0)
    ∨ (st.currentLine ≠ [] ∧ st.currentLength = (joinWords st.currentLine).length + 1
        ∧ (joinWords st.currentLine).length ≤ limit)
    ∨ (st.currentLine.length = 1 ∧ st.currentLength = (joinWords st.currentLine).length)
    ∨ (2 ≤ st.currentLine.length ∧ st.currentLength = (joinWords st.currentLine).length
        ∧ (joinWords st.currentLine).length ≤ limit + 1))

/-- The value of a little-endian decimal digit list. -/
def digitsVal : List Nat → Nat
  | [] => 0
  | d :: ds => d + 10 * digitsVal ds

/-- The ids of the records of `L`, pushed (most recent first) onto `seen`,
as `parentsOK` accumulates them. -/
def pushIds (L : List ChartRecord) (seen : List String) : List String :=
  L.foldl (fun s r => r.id :: s) seen

/-! ## Induction principle for the nested tree type -/

theorem node_ind (P : Node → Prop)
    (ht : ∀ s, P (.text s))
    (he : ∀ nm ats ch, (∀ c ∈ ch, P c) → P (.elem nm ats ch)) :
    ∀ n, P n
  | .text s => ht s
  | .elem nm ats ch => he nm ats ch (fun c _ => node_ind P ht he c)
termination_by n => sizeOf n
decreasing_by
  simp only [Node.elem.sizeOf_spec]
  have := List.sizeOf_lt_of_mem (by assumption : c ∈ ch)
  omega


/-! ## Branch filter: basic lemmas -/

theorem survivorsOKList_cover (keep : Node → Bool) (l : List Node)
    (ih : ∀ c ∈ l, survivorsOK keep true c = true) :
    survivorsOKList keep true l = true := by
  induction l with
  | nil => rfl
  | cons c cs ihl =>
    simp only [survivorsOKList, Bool.and_eq_true]
    exact ⟨ih c (List.mem_cons_self c cs),
      ihl (fun d hd => ih d (List.mem_cons_of_mem c hd))⟩

theorem survivorsOK_cover (keep : Node → Bool) : ∀ n, survivorsOK keep true n = true := by
  intro n
  induction n using node_ind with
  | ht s => rfl
  | he nm ats ch ih =>
    simp only [survivorsOK, Bool.true_or, Bool.true_and]
    exact survivorsOKList_cover keep ch ih

theorem hasMatchList_of_filter (keep : Node → Bool) (cs : List Node)
    (ih : ∀ c ∈ cs, (filter_branches keep c).2 = true →
      hasMatch keep (filter_branches keep c).1 = true) :
    (filterChildrenList keep cs).2 = true →
    hasMatchList keep (filterChildrenList keep cs).1 = true := by
  induction cs with
  | nil => intro h; exact absurd h (by simp [filterChildrenList])
  | cons c cs ihl =>
    have ihtail := ihl (fun d hd => ih d (List.mem_cons_of_mem c hd))
    cases c with
    | text s =>
      simp only [filterChildrenList, hasMatchList, hasMatch, Bool.false_or]
      exact ihtail
    | elem nm ats ch =>
      simp only [filterChildrenList]
      cases hq : (filter_branches keep (.elem nm ats ch)).2 with
      | true =>
        have hh := ih (.elem nm ats ch) (List.mem_cons_self _ cs) hq
        intro _
        simp [hasMatchList, hh]
      | false =>
        simp only [hq, Bool.false_eq_true, if_false]
        exact ihtail

theorem hasMatch_of_filter (keep : Node → Bool) :
    ∀ n, (filter_branches keep n).2 = true →
      hasMatch keep (filter_branches keep n).1 = true := by
  intro n
  induction n using node_ind with
  | ht s => simp [filter_branches]
  | he nm ats ch ih =>
    intro h
    cases hk : keep (.elem nm ats ch) with
    | true => simp [filter_branches, hk, hasMatch]
    | false =>
      cases hemp : ch.isEmpty with
      | true => simp [filter_branches, hk, hemp] at h
      | false =>
        simp only [filter_branches, hk, hemp, Bool.false_eq_true, if_false] at h ⊢
        have := hasMatchList_of_filter keep ch ih h
        simp [hasMatch, this]

theorem survivorsOKList_of_filter (keep : Node → Bool) (cs : List Node)
    (ih : ∀ c ∈ cs, ∀ cover, (filter_branches keep c).2 = true →
      survivorsOK keep cover (filter_branches keep c).1 = true) :
    ∀ cover, survivorsOKList keep cover (filterChildrenList keep cs).1 = true := by
  induction cs with
  | nil => intro cover; rfl
  | cons c cs ihl =>
    intro cover
    have ihtail := ihl (fun d hd => ih d (List.mem_cons_of_mem c hd)) cover
    cases c with
    | text s =>
      simp only [filterChildrenList, survivorsOKList, survivorsOK, Bool.true_and]
      exact ihtail
    | elem nm ats ch =>
      simp only [filterChildrenList]
      cases hq : (filter_branches keep (.elem nm ats ch)).2 with
      | true =>
        simp only [if_true, survivorsOKList, Bool.and_eq_true]
        exact ⟨ih (.elem nm ats ch) (List.mem_cons_self _ cs) cover hq, ihtail⟩
      | false =>
        simp only [hq, Bool.false_eq_true, if_false]
        exact ihtail

theorem survivorsOK_of_filter (keep : Node → Bool) :
    ∀ n, ∀ cover, (filter_branches keep n).2 = true →
      survivorsOK keep cover (filter_branches keep n).1 = true := by
  intro n
  induction n using node_ind with
  | ht s => simp [filter_branches]
  | he nm ats ch ih =>
    intro cover h
    cases hk : keep (.elem nm ats ch) with
    | true =>
      simp only [filter_branches, hk, if_true, survivorsOK, Bool.or_true,
        Bool.true_and, Bool.or_self]
      exact survivorsOKList_cover keep ch (fun c _ => survivorsOK_cover keep c)
    | false =>
      cases hemp : ch.isEmpty with
      | true => simp [filter_branches, hk, hemp] at h
      | false =>
        simp only [filter_branches, hk, hemp, Bool.false_eq_true, if_false] at h ⊢
        have hm : hasMatch keep (.elem nm ats (filterChildrenList keep ch).1) = true := by
          have := hasMatch_of_filter keep (.elem nm ats ch) (by
            simp [filter_branches, hk, hemp]; exact h)
          simpa [filter_branches, hk, hemp] using this
        simp only [survivorsOK, hm, Bool.or_true, Bool.true_and]
        exact survivorsOKList_of_filter keep ch ih _

/-- Claim C1 (counterexample): with `keep(n) = (n.tagName == "span")` and
the tree `<span><div></div></span>`, the root matches `keep`, so
`_filter_branches` returns immediately without re-testing descendants;
the surviving `div` neither satisfies `keep` nor has any descendant that
does, refuting the claim that every remaining element has a match in its
own subtree. -/
theorem claimC1_counterexample :
    claimC1Check keepSpan
      (filterTree keepSpan (.elem "span" [] [.elem "div" [] []])) = false := by
  rfl

/-- Claim C1 (amended): after `_filter_branches` runs, every remaining
non-root element either satisfies `keep`, or has a descendant element (in
the filtered tree) satisfying `keep`, or has an ancestor element satisfying
`keep` — descendants of a matching element are preserved unconditionally,
because `_filter_branches` returns as soon as `keep` holds and never
re-tests the subtree below a match; the root itself always remains. -/
theorem filter_guarantee_amended (keep : Node → Bool) (n : Node) :
    filteredTreeOK keep (filterTree keep n) = true := by
  cases n with
  | text s => rfl
  | elem nm ats ch =>
    unfold filterTree
    cases hk : keep (.elem nm ats ch) with
    | true =>
      simp only [filter_branches, hk, if_true, filteredTreeOK]
      cases hk2 : keep (Node.elem nm ats ch) with
      | true =>
        exact survivorsOKList_cover keep ch (fun c _ => survivorsOK_cover keep c)
      | false => simp [hk] at hk2
    | false =>
      cases hemp : ch.isEmpty with
      | true =>
        have : ch = [] := by simpa [List.isEmpty_iff] using hemp
        subst this
        simp [filter_branches, hk, filteredTreeOK, survivorsOKList]
      | false =>
        simp only [filter_branches, hk, hemp, Bool.false_eq_true, if_false,
          filteredTreeOK]
        exact survivorsOKList_of_filter keep ch
          (fun c _ cover hc => survivorsOK_of_filter keep c cover hc) _

/-- Claim C9: if `keep` holds at the node `_filter_branches` is invoked on,
the call reports kept immediately and leaves the whole subtree untouched,
whatever `keep` would say on any descendant. -/
theorem filter_match_short_circuits (keep : Node → Bool) (nm : String)
    (ats : List (String × String)) (ch : List Node)
    (h : keep (.elem nm ats ch) = true) :
    filter_branches keep (.elem nm ats ch) = (.elem nm ats ch, true) := by
  simp [filter_branches, h]

/-- Witness for C9: a `span` root kept by `keep(n) = (n.tagName == "span")`
preserves a `div` child that fails the predicate and has no matching
descendant. -/
theorem filter_match_short_circuits_witness :
    keepSpan (.elem "span" [] [.elem "div" [] []]) = true ∧
    filter_branches keepSpan (.elem "span" [] [.elem "div" [] []])
      = (.elem "span" [] [.elem "div" [] []], true) :=
  ⟨rfl, filter_match_short_circuits keepSpan "span" [] [.elem "div" [] []] rfl⟩

theorem filter_shape (keep : Node → Bool) (nm : String)
    (ats : List (String × String)) (ch : List Node) :
    ∃ ch2 b, filter_branches keep (.elem nm ats ch) = (.elem nm ats ch2, b) := by
  cases hk : keep (.elem nm ats ch) with
  | true => exact ⟨ch, true, by simp [filter_branches, hk]⟩
  | false =>
    cases hemp : ch.isEmpty with
    | true => exact ⟨ch, false, by simp [filter_branches, hk, hemp]⟩
    | false =>
      exact ⟨(filterChildrenList keep ch).1, (filterChildrenList keep ch).2,
        by simp [filter_branches, hk, hemp]⟩

theorem filterChildrenList_ne_nil (keep : Node → Bool) (cs : List Node)
    (h : (filterChildrenList keep cs).2 = true) :
    (filterChildrenList keep cs).1.isEmpty = false := by
  induction cs with
  | nil => simp [filterChildrenList] at h
  | cons c cs ihl =>
    cases c with
    | text s => simp [filterChildrenList]
    | elem nm ats ch =>
      simp only [filterChildrenList] at h ⊢
      cases hq : (filter_branches keep (.elem nm ats ch)).2 with
      | true => simp
      | false =>
        simp only [hq, Bool.false_eq_true, if_false] at h ⊢
        exact ihl h

theorem filterChildrenList_idem (keep : Node → Bool) (cs : List Node)
    (ih : ∀ c ∈ cs, (filter_branches keep c).2 = true →
      filter_branches keep (filter_branches keep c).1
        = ((filter_branches keep c).1, true)) :
    filterChildrenList keep (filterChildrenList keep cs).1
      = filterChildrenList keep cs := by
  induction cs with
  | nil => rfl
  | cons c cs ihl =>
    have ihtail := ihl (fun d hd => ih d (List.mem_cons_of_mem c hd))
    cases c with
    | text s =>
      simp [filterChildrenList, ihtail]
    | elem nm ats ch =>
      obtain ⟨ch2, b, hsh⟩ := filter_shape keep nm ats ch
      simp only [filterChildrenList]
      cases hq : (filter_branches keep (.elem nm ats ch)).2 with
      | true =>
        have hb : b = true := by rw [hsh] at hq; exact hq
        subst hb
        have hself := ih (.elem nm ats ch) (List.mem_cons_self _ cs) hq
        rw [hsh] at hself ⊢
        simp only [if_true, filterChildrenList, hself, if_true, ihtail]
      | false =>
        simp only [hq, Bool.false_eq_true, if_false]
        exact ihtail

theorem filter_stable (keep : Node → Bool) :
    ∀ n, (filter_branches keep n).2 = true →
      filter_branches keep (filter_branches keep n).1
        = ((filter_branches keep n).1, true) := by
  intro n
  induction n using node_ind with
  | ht s => simp [filter_branches]
  | he nm ats ch ih =>
    intro h
    cases hk : keep (.elem nm ats ch) with
    | true => simp [filter_branches, hk]
    | false =>
      cases hemp : ch.isEmpty with
      | true => simp [filter_branches, hk, hemp] at h
      | false =>
        simp only [filter_branches, hk, hemp, Bool.false_eq_true, if_false] at h ⊢
        cases hk2 : keep (.elem nm ats (filterChildrenList keep ch).1) with
        | true => simp [filter_branches, hk2, h]
        | false =>
          have hemp2 := filterChildrenList_ne_nil keep ch h
          simp only [filter_branches, hk2, hemp2, Bool.false_eq_true, if_false]
          rw [filterChildrenList_idem keep ch ih]
          simp [h]

/-- Claim C4: `_filter_branches` is idempotent — filtering a tree already
filtered with the same predicate removes no further node and returns an
identical tree. -/
theorem filter_idempotent (keep : Node → Bool) (n : Node) :
    filterTree keep (filterTree keep n) = filterTree keep n := by
  cases n with
  | text s => rfl
  | elem nm ats ch =>
    unfold filterTree
    cases hk : keep (.elem nm ats ch) with
    | true => simp [filter_branches, hk]
    | false =>
      cases hemp : ch.isEmpty with
      | true => simp [filter_branches, hk, hemp]
      | false =>
        simp only [filter_branches, hk, hemp, Bool.false_eq_true, if_false]
        cases hk2 : keep (.elem nm ats (filterChildrenList keep ch).1) with
        | true => simp [filter_branches, hk2]
        | false =>
          cases hemp2 : (filterChildrenList keep ch).1.isEmpty with
          | true => simp [filter_branches, hk2, hemp2]
          | false =>
            simp only [filter_branches, hk2, hemp2, Bool.false_eq_true, if_false]
            rw [filterChildrenList_idem keep ch
              (fun c _ hc => filter_stable keep c hc)]

/-! ## Subtree masker -/

theorem getAttr_setAttr_self (ats : List (String × String)) (k v : String) :
    getAttr (setAttr ats k v) k = some v := by
  induction ats with
  | nil => simp [setAttr, getAttr]
  | cons kv rest ih =>
    obtain ⟨k1, v1⟩ := kv
    by_cases hk : k1 = k
    · simp [setAttr, hk, getAttr]
    · simp [setAttr, hk, getAttr, ih]

theorem getAttr_none_of_hasAttr_false (ats : List (String × String)) (k : String)
    (h : hasAttr ats k = false) : getAttr ats k = none := by
  unfold hasAttr at h
  cases hg : getAttr ats k with
  | none => rfl
  | some v => rw [hg] at h; simp at h

theorem filter_isElem_of_not_isElem (ch : List Node) :
    (ch.filter (fun c => !c.isElem)).filter Node.isElem = [] := by
  induction ch with
  | nil => rfl
  | cons c cs ih =>
    cases hc : c.isElem with
    | true => simp [List.filter, hc, ih]
    | false => simp [List.filter, hc, ih]

theorem allElemsList_forall (p : Node → Bool) (l : List Node) :
    allElemsList p l = true ↔ ∀ c ∈ l, allElems p c = true := by
  induction l with
  | nil => simp [allElemsList]
  | cons c cs ih =>
    simp only [allElemsList, Bool.and_eq_true, ih, List.mem_cons]
    constructor
    · rintro ⟨h1, h2⟩ d (rfl | hd)
      · exact h1
      · exact h2 d hd
    · intro h
      exact ⟨h c (Or.inl rfl), fun d hd => h d (Or.inr hd)⟩

theorem elemCountList_all_text : ∀ (l : List Node),
    (∀ c ∈ l, c.isElem = false) → elemCountList l = 0 := by
  intro l
  induction l with
  | nil => intro h; rfl
  | cons c cs ih =>
    intro h
    have hc := h c (List.mem_cons_self c cs)
    cases c with
    | text s =>
      simp only [elemCountList, elemCount, Nat.zero_add]
      exact ih (fun d hd => h d (List.mem_cons_of_mem _ hd))
    | elem nm ats ch => simp [Node.isElem] at hc

theorem maskedCountList_all_text : ∀ (l : List Node),
    (∀ c ∈ l, c.isElem = false) → maskedCountList l = 0 := by
  intro l
  induction l with
  | nil => intro h; rfl
  | cons c cs ih =>
    intro h
    have hc := h c (List.mem_cons_self c cs)
    cases c with
    | text s =>
      simp only [maskedCountList, maskedCount, Nat.zero_add]
      exact ih (fun d hd => h d (List.mem_cons_of_mem _ hd))
    | elem nm ats ch => simp [Node.isElem] at hc

theorem mem_filter_not_isElem (ch : List Node) :
    ∀ c ∈ ch.filter (fun c => !c.isElem), c.isElem = false := by
  intro c hc
  have := List.of_mem_filter hc
  simpa using this

/-- Claim C5 (counterexample): the claim fails on the code in two ways.
With `maskText` returning the empty string, a masked `div` carries an empty
annotation; and on a tree whose input HTML already carries an `el-mask`
attribute on an element the masker never matches, that element keeps its
element children. -/
theorem claimC5_counterexample :
    claimC5Check (mask_elements (fun _ => true) (fun _ => "")
      (.elem "div" [] [])) = false
    ∧ claimC5Check (mask_elements (fun _ => false) default_mask_fn
      (.elem "div" [("el-mask", "x")] [.elem "span" [] []])) = false :=
  ⟨rfl, rfl⟩

theorem maskChildrenList_eq_map (sm : Node → Bool) (mf : Node → String) :
    ∀ l : List Node, maskChildrenList sm mf l
      = l.map (fun c => if c.isElem then mask_elements sm mf c else c) := by
  intro l
  induction l with
  | nil => rfl
  | cons c cs ih => simp [maskChildrenList, ih]

theorem default_mask_fn_nonempty (nm : String) (ats : List (String × String))
    (ch : List Node) : default_mask_fn (.elem nm ats ch) ≠ "" := by
  intro h
  unfold default_mask_fn at h
  have h0 : ("" : String).length = 0 := rfl
  split at h
  · have hl := congrArg String.length h
    rw [String.length_append] at hl
    have h6 : ("href: " : String).length = 6 := rfl
    omega
  · have hl := congrArg String.length h
    rw [serializeNode] at hl
    simp only [String.length_append] at hl
    have h1 : ("<" : String).length = 1 := rfl
    omega

theorem mask_leaf_property_amended_core (sm : Node → Bool) (mf : Node → String) :
    ∀ n, allElems noMaskAttr n = true →
      (∀ nm ats ch, mf (.elem nm ats ch) ≠ "") →
      claimC5Check (mask_elements sm mf n) = true := by
  intro n
  induction n using node_ind with
  | ht s => intro _ _; rfl
  | he nm ats ch ih =>
    intro hpre hmf
    simp only [allElems, Bool.and_eq_true] at hpre
    obtain ⟨h1, h2⟩ := hpre
    have hroot : hasAttr ats "el-mask" = false := by
      simpa [noMaskAttr] using h1
    have hch := (allElemsList_forall _ _).1 h2
    cases hsm : sm (.elem nm ats ch) with
    | true =>
      simp only [mask_elements, hsm, if_true]
      unfold claimC5Check
      simp only [allElems, Bool.and_eq_true]
      constructor
      · simp only [getAttr_setAttr_self]
        rw [Bool.and_eq_true]
        constructor
        · simp [filter_isElem_of_not_isElem]
        · simp [hmf nm ats ch]
      · rw [allElemsList_forall]
        intro c hc
        have hce := mem_filter_not_isElem ch c hc
        cases c with
        | text s => rfl
        | elem nm2 ats2 ch2 => simp [Node.isElem] at hce
    | false =>
      simp only [mask_elements, hsm, Bool.false_eq_true, if_false]
      unfold claimC5Check
      simp only [allElems, Bool.and_eq_true]
      constructor
      · simp [getAttr_none_of_hasAttr_false ats "el-mask" hroot]
      · rw [allElemsList_forall, maskChildrenList_eq_map]
        intro d hd
        obtain ⟨c, hc, rfl⟩ := List.mem_map.1 hd
        cases c with
        | text s => rfl
        | elem nm2 ats2 ch2 =>
          simp only [Node.isElem, if_true]
          exact ih _ hc (hch _ hc) hmf

/-- Claim C5 (amended): on a tree none of whose elements initially carries
the `el-mask` attribute, after `_mask_elements` runs every element carrying
the `el-mask` attribute has zero element children, and its annotation —
the stored `maskText` output — is non-empty whenever `maskText` never
returns the empty string (as the default `maskText` never does). -/
theorem mask_leaf_property_amended (sm : Node → Bool) (mf : Node → String)
    (n : Node) (hpre : allElems noMaskAttr n = true)
    (hmf : ∀ nm ats ch, mf (.elem nm ats ch) ≠ "") :
    claimC5Check (mask_elements sm mf n) = true :=
  mask_leaf_property_amended_core sm mf n hpre hmf

/-- Witness for the amended C5 at the spec scenario tree, the `div` mask
predicate and the default `maskText`. -/
theorem mask_leaf_property_amended_witness :
    allElems noMaskAttr tree0 = true ∧
    claimC5Check (mask_elements maskDiv default_mask_fn tree0) = true :=
  ⟨rfl, mask_leaf_property_amended maskDiv default_mask_fn tree0 rfl
    default_mask_fn_nonempty⟩

/-- Claim C6: if `shouldMask` holds at the element `_mask_elements` reaches,
that element gets the annotation `maskText` of the original (children
intact) element, and the result contains exactly one element — the node
itself — so every matching strict descendant is gone and exactly one
element (the topmost matching one) carries a mask annotation; the masker
never recursed into the masked subtree. -/
theorem mask_topmost_carries_only (sm : Node → Bool) (mf : Node → String)
    (nm : String) (ats : List (String × String)) (ch : List Node)
    (h : sm (.elem nm ats ch) = true) :
    getAttr (Node.attrsOf (mask_elements sm mf (.elem nm ats ch))) "el-mask"
      = some (mf (.elem nm ats ch))
    ∧ elemCount (mask_elements sm mf (.elem nm ats ch)) = 1
    ∧ maskedCount (mask_elements sm mf (.elem nm ats ch)) = 1 := by
  simp only [mask_elements, h, if_true]
  refine ⟨by simp [Node.attrsOf, getAttr_setAttr_self], ?_, ?_⟩
  · simp only [elemCount]
    rw [elemCountList_all_text _ (mem_filter_not_isElem ch)]
  · simp only [maskedCount, hasAttr, getAttr_setAttr_self, Option.isSome_some,
      if_true]
    rw [maskedCountList_all_text _ (mem_filter_not_isElem ch)]

/-- Witness for C6 at the spec section 8 scenario: `div` and its child
`span` both match the mask predicate; only `div` ends up carrying `el-mask`
and `span` is gone. -/
theorem mask_topmost_carries_only_witness :
    maskDivSpan (.elem "div" [] [.elem "span" [] [.text "x"]]) = true
    ∧ getAttr (Node.attrsOf (mask_elements maskDivSpan default_mask_fn
        (.elem "div" [] [.elem "span" [] [.text "x"]]))) "el-mask"
      = some (default_mask_fn (.elem "div" [] [.elem "span" [] [.text "x"]]))
    ∧ elemCount (mask_elements maskDivSpan default_mask_fn
        (.elem "div" [] [.elem "span" [] [.text "x"]])) = 1
    ∧ maskedCount (mask_elements maskDivSpan default_mask_fn
        (.elem "div" [] [.elem "span" [] [.text "x"]])) = 1 :=
  ⟨rfl,
    (mask_topmost_carries_only maskDivSpan default_mask_fn "div" []
      [.elem "span" [] [.text "x"]] rfl).1,
    (mask_topmost_carries_only maskDivSpan default_mask_fn "div" []
      [.elem "span" [] [.text "x"]] rfl).2.1,
    (mask_topmost_carries_only maskDivSpan default_mask_fn "div" []
      [.elem "span" [] [.text "x"]] rfl).2.2⟩

/-! ## Text wrapper -/

theorem joinWords_append_word : ∀ (l : List String) (w : String), l ≠ [] →
    (joinWords (l ++ [w])).length = (joinWords l).length + 1 + w.length := by
  intro l
  induction l with
  | nil => intro w h; exact absurd rfl h
  | cons x xs ih =>
    intro w _
    cases xs with
    | nil =>
      have h1 : joinWords ([x] ++ [w]) = x ++ " " ++ w := rfl
      have h2 : joinWords [x] = x := rfl
      rw [h1, h2, String.length_append, String.length_append]
      have h3 : (" " : String).length = 1 := rfl
      omega
    | cons y ys =>
      have ihw := ih w (by simp)
      have h1 : joinWords ((x :: y :: ys) ++ [w])
        = x ++ " " ++ joinWords ((y :: ys) ++ [w]) := rfl
      have h2 : joinWords (x :: y :: ys) = x ++ " " ++ joinWords (y :: ys) := rfl
      rw [h1, h2, String.length_append, String.length_append,
        String.length_append, String.length_append]
      have h3 : (" " : String).length = 1 := rfl
      omega

theorem wrapStep_inv (limit : Nat) (st : WrapState) (w : String)
    (h : wrapInv limit st) : wrapInv limit (wrapStep limit st w) := by
  obtain ⟨hres, hcl⟩ := h
  unfold wrapStep
  by_cases hc : st.currentLength + w.length > limit
  · rw [if_pos hc]
    constructor
    · intro l hl
      rcases List.mem_append.1 hl with hl | hl
      · exact hres l hl
      · have hl2 : l = st.currentLine := by simpa using hl
        subst hl2
        rcases hcl with ⟨he, _⟩ | ⟨_, _, hb⟩ | ⟨h1, _⟩ | ⟨_, _, hb⟩
        · rw [he]; simp [lineOK, joinWords]
        · simp only [lineOK, Bool.or_eq_true, decide_eq_true_eq]
          right; omega
        · simp [lineOK, h1]
        · simp only [lineOK, Bool.or_eq_true, decide_eq_true_eq]
          right; omega
    · right; right; left
      exact ⟨rfl, rfl⟩
  · rw [if_neg hc]
    have hc2 : st.currentLength + w.length ≤ limit := by omega
    refine ⟨hres, ?_⟩
    rcases hcl with ⟨he, hz⟩ | ⟨hne, hcnt, hb⟩ | ⟨h1, hcnt⟩ | ⟨h2, hcnt, hb⟩
    · right; left
      rw [he]
      have hj : joinWords ([] ++ [w]) = w := rfl
      refine ⟨by simp, ?_, ?_⟩
      · show st.currentLength + w.length + 1 = (joinWords ([] ++ [w])).length + 1
        rw [hj]; omega
      · show (joinWords ([] ++ [w])).length ≤ limit
        rw [hj]; omega
    · right; left
      have hj := joinWords_append_word st.currentLine w hne
      refine ⟨by simp, ?_, ?_⟩
      · show st.currentLength + w.length + 1
          = (joinWords (st.currentLine ++ [w])).length + 1
        rw [hj]; omega
      · show (joinWords (st.currentLine ++ [w])).length ≤ limit
        rw [hj]; omega
    · have hne : st.currentLine ≠ [] := by
        intro he; rw [he] at h1; simp at h1
      have hj := joinWords_append_word st.currentLine w hne
      right; right; right
      refine ⟨by simp [h1], ?_, ?_⟩
      · show st.currentLength + w.length + 1
          = (joinWords (st.currentLine ++ [w])).length
        rw [hj]; omega
      · show (joinWords (st.currentLine ++ [w])).length ≤ limit + 1
        rw [hj]; omega
    · have hne : st.currentLine ≠ [] := by
        intro he; rw [he] at h2; simp at h2
      have hj := joinWords_append_word st.currentLine w hne
      right; right; right
      refine ⟨by simp; omega, ?_, ?_⟩
      · show st.currentLength + w.length + 1
          = (joinWords (st.currentLine ++ [w])).length
        rw [hj]; omega
      · show (joinWords (st.currentLine ++ [w])).length ≤ limit + 1
        rw [hj]; omega

theorem foldl_wrapStep_inv (limit : Nat) : ∀ (ws : List String) (st : WrapState),
    wrapInv limit st → wrapInv limit (ws.foldl (wrapStep limit) st) := by
  intro ws
  induction ws with
  | nil => intro st h; exact h
  | cons w ws ih => intro st h; exact ih _ (wrapStep_inv limit st w h)

theorem lineOK_currentLine (limit : Nat) (st : WrapState) (h : wrapInv limit st) :
    lineOK limit st.currentLine = true := by
  rcases h.2 with ⟨he, _⟩ | ⟨_, _, hb⟩ | ⟨h1, _⟩ | ⟨_, _, hb⟩
  · rw [he]; simp [lineOK, joinWords]
  · simp only [lineOK, Bool.or_eq_true, decide_eq_true_eq]
    right; omega
  · simp [lineOK, h1]
  · simp only [lineOK, Bool.or_eq_true, decide_eq_true_eq]
    right; omega

/-- Claim C2 (counterexample): at `limit = 5` on `"aaa bb ccc"`, the wrapper
produces the two-word line `bb ccc` of joined length `6 > 5` — the first
word opening a line after a flush is counted without its trailing space, so
the original per-line bound fails on a line that is not a single overlong
word. -/
theorem claimC2_counterexample : claimC2Check 5 (pySplit "aaa bb ccc") = false :=
  rfl

/-- Claim C2 (amended): for every word list and every limit, each output
line of `_add_line_breaks` either is a single word (an overlong word is
placed alone, untruncated) or has joined character count at most
`limit + 1`; the slack of one character arises exactly because the word
that opens a line after a break is counted without a trailing space. -/
theorem wrap_line_bound_amended (limit : Nat) (ws : List String) :
    amendedC2Check limit ws = true := by
  have hinit : wrapInv limit ⟨[], [], 0⟩ :=
    ⟨by intro l hl; simp at hl, Or.inl ⟨rfl, rfl⟩⟩
  have hinv := foldl_wrapStep_inv limit ws ⟨[], [], 0⟩ hinit
  have hrun : wrapRun limit ws = ws.foldl (wrapStep limit) ⟨[], [], 0⟩ := rfl
  have hlines : wrapLines limit ws = (wrapRun limit ws).result
      ++ (if (wrapRun limit ws).currentLine.isEmpty then []
          else [(wrapRun limit ws).currentLine]) := rfl
  unfold amendedC2Check
  rw [hlines, List.all_append, Bool.and_eq_true, List.all_eq_true,
    List.all_eq_true]
  rw [← hrun] at hinv
  constructor
  · intro l hl
    exact hinv.1 l hl
  · intro l hl
    cases hemp : (wrapRun limit ws).currentLine.isEmpty with
    | true => rw [hemp] at hl; simp at hl
    | false =>
      rw [hemp] at hl
      have hl2 : l = (wrapRun limit ws).currentLine := by
        simpa using hl
      rw [hl2]
      exact lineOK_currentLine limit _ hinv

theorem add_line_breaks_eq (t : String) (lim : Nat) :
    add_line_breaks t lim = joinWords
      ((wrapRun lim (pySplit t)).result.map (fun l => joinWords l ++ "<br />")
        ++ (if (wrapRun lim (pySplit t)).currentLine.isEmpty then []
            else [joinWords (wrapRun lim (pySplit t)).currentLine])) := rfl

theorem wrapFold_result_grows (limit : Nat) : ∀ (ws : List String) (st : WrapState),
    ∃ tl, (ws.foldl (wrapStep limit) st).result = st.result ++ tl := by
  intro ws
  induction ws with
  | nil => intro st; exact ⟨[], by simp⟩
  | cons w ws ih =>
    intro st
    rw [List.foldl_cons]
    obtain ⟨tl, htl⟩ := ih (wrapStep limit st w)
    by_cases hc : st.currentLength + w.length > limit
    · refine ⟨[st.currentLine] ++ tl, ?_⟩
      rw [htl]
      have hres : (wrapStep limit st w).result = st.result ++ [st.currentLine] := by
        unfold wrapStep; rw [if_pos hc]
      rw [hres, List.append_assoc]
    · refine ⟨tl, ?_⟩
      rw [htl]
      have hres : (wrapStep limit st w).result = st.result := by
        unfold wrapStep; rw [if_neg hc]
      rw [hres]

theorem wrapFold_no_break (limit : Nat) : ∀ (ws : List String) (st : WrapState),
    (ws.foldl (wrapStep limit) st).result = st.result →
    (ws.foldl (wrapStep limit) st).currentLine = st.currentLine ++ ws := by
  intro ws
  induction ws with
  | nil => intro st _; simp
  | cons w ws ih =>
    intro st h
    rw [List.foldl_cons] at h ⊢
    by_cases hc : st.currentLength + w.length > limit
    · exfalso
      obtain ⟨tl, htl⟩ := wrapFold_result_grows limit ws (wrapStep limit st w)
      rw [htl] at h
      have hres : (wrapStep limit st w).result = st.result ++ [st.currentLine] := by
        unfold wrapStep; rw [if_pos hc]
      rw [hres] at h
      have := congrArg List.length h
      simp at this
    · have hst : wrapStep limit st w
        = ⟨st.result, st.currentLine ++ [w], st.currentLength + w.length + 1⟩ := by
        unfold wrapStep; rw [if_neg hc]
      rw [hst] at h ⊢
      have h2 := ih ⟨st.result, st.currentLine ++ [w], st.currentLength + w.length + 1⟩ h
      rw [h2]
      simp

theorem splitAux_clean : ∀ (cs acc : List Char),
    (∀ c ∈ acc, c.isWhitespace = false) →
    ∀ w ∈ splitAux cs acc, w.data ≠ [] ∧ ∀ c ∈ w.data, c.isWhitespace = false := by
  intro cs
  induction cs with
  | nil =>
    intro acc hacc w hw
    simp only [splitAux] at hw
    cases hae : acc.isEmpty with
    | true => rw [hae] at hw; simp at hw
    | false =>
      rw [hae] at hw
      simp only [Bool.false_eq_true, if_false, List.mem_singleton] at hw
      subst hw
      constructor
      · show acc.reverse ≠ []
        simp only [ne_eq, List.reverse_eq_nil_iff]
        intro hnil
        rw [hnil] at hae
        simp at hae
      · intro c hc
        exact hacc c (List.mem_reverse.1 hc)
  | cons c cs ih =>
    intro acc hacc w hw
    simp only [splitAux] at hw
    cases hws : c.isWhitespace with
    | true =>
      rw [hws] at hw
      simp only [if_true] at hw
      cases hae : acc.isEmpty with
      | true =>
        rw [hae] at hw; simp only [if_true] at hw
        exact ih [] (by intro d hd; simp at hd) w hw
      | false =>
        rw [hae] at hw
        simp only [Bool.false_eq_true, if_false, List.mem_cons] at hw
        rcases hw with rfl | hw
        · constructor
          · show acc.reverse ≠ []
            simp only [ne_eq, List.reverse_eq_nil_iff]
            intro hnil
            rw [hnil] at hae
            simp at hae
          · intro d hd
            exact hacc d (List.mem_reverse.1 hd)
        · exact ih [] (by intro d hd; simp at hd) w hw
    | false =>
      rw [hws] at hw
      simp only [Bool.false_eq_true, if_false] at hw
      refine ih (c :: acc) ?_ w hw
      intro d hd
      rcases List.mem_cons.1 hd with rfl | hd
      · exact hws
      · exact hacc d hd

theorem splitAux_through_word : ∀ (cs : List Char),
    (∀ c ∈ cs, c.isWhitespace = false) →
    ∀ (rest acc : List Char),
      splitAux (cs ++ rest) acc = splitAux rest (cs.reverse ++ acc) := by
  intro cs
  induction cs with
  | nil => intro _ rest acc; simp
  | cons c cs ih =>
    intro h rest acc
    have hc := h c (List.mem_cons_self c cs)
    show splitAux (c :: (cs ++ rest)) acc = _
    simp only [splitAux, hc, Bool.false_eq_true, if_false]
    rw [ih (fun d hd => h d (List.mem_cons_of_mem _ hd)) rest (c :: acc)]
    simp

theorem pySplit_joinWords : ∀ (ws : List String),
    (∀ w ∈ ws, w.data ≠ [] ∧ ∀ c ∈ w.data, c.isWhitespace = false) →
    pySplit (joinWords ws) = ws := by
  intro ws
  induction ws with
  | nil => intro _; rfl
  | cons w ws ih =>
    intro h
    obtain ⟨hne, hcl⟩ := h w (List.mem_cons_self w ws)
    have hrevne : (w.data.reverse).isEmpty = false := by
      simp [List.isEmpty_iff, hne]
    cases ws with
    | nil =>
      show splitAux (joinWords [w]).data [] = [w]
      have hj : joinWords [w] = w := rfl
      rw [hj]
      have hword := splitAux_through_word w.data hcl [] []
      simp only [List.append_nil] at hword
      rw [hword]
      simp only [splitAux, hrevne, Bool.false_eq_true, if_false,
        List.reverse_reverse]
    | cons v vs =>
      show splitAux (joinWords (w :: v :: vs)).data [] = w :: v :: vs
      have hj : joinWords (w :: v :: vs) = w ++ " " ++ joinWords (v :: vs) := rfl
      rw [hj]
      have hdata : (w ++ " " ++ joinWords (v :: vs)).data
          = w.data ++ (' ' :: (joinWords (v :: vs)).data) := by
        rw [String.data_append, String.data_append]
        have hsd : (" " : String).data = [' '] := rfl
        rw [hsd, List.append_assoc]
        rfl
      rw [hdata, splitAux_through_word w.data hcl]
      simp only [List.append_nil]
      have hsp : (' ').isWhitespace = true := rfl
      simp only [splitAux, hsp, if_true, hrevne, Bool.false_eq_true, if_false,
        List.reverse_reverse]
      have htail : splitAux (joinWords (v :: vs)).data [] = v :: vs :=
        ih (fun d hd => h d (List.mem_cons_of_mem _ hd))
      show String.mk w.data :: splitAux (joinWords (v :: vs)).data [] = w :: v :: vs
      rw [htail]

/-- Claim C3 (counterexample): wrapping is not idempotent — the inserted
marker `<br />` contains a space, so re-wrapping re-splits it into new
words: at limit 3, the output of wrapping `aaa bb` changes when wrapped
again. -/
theorem claimC3_counterexample :
    ¬ (add_line_breaks (add_line_breaks "aaa bb" 3) 3
        = add_line_breaks "aaa bb" 3) := by
  decide

/-- Claim C3 (amended): wrapping is deterministic — equal inputs give equal
outputs — and it is idempotent whenever no line break is inserted (the
whole text fits one line, so the output is the words joined by single
spaces and re-wrapping reproduces it); with a break marker in the output
idempotence fails, because the marker itself is re-split into words. -/
theorem wrap_det_and_single_line_idem (text : String) (limit : Nat)
    (h : (wrapRun limit (pySplit text)).result = []) :
    add_line_breaks text limit = add_line_breaks text limit
    ∧ add_line_breaks (add_line_breaks text limit) limit
      = add_line_breaks text limit := by
  refine ⟨rfl, ?_⟩
  have hcl : (wrapRun limit (pySplit text)).currentLine = pySplit text := by
    have := wrapFold_no_break limit (pySplit text) ⟨[], [], 0⟩ h
    simpa using this
  have hout : add_line_breaks text limit = joinWords
      (if (pySplit text).isEmpty then [] else [joinWords (pySplit text)]) := by
    rw [add_line_breaks_eq, h, hcl]
    simp only [List.map_nil, List.nil_append]
  cases hsp : (pySplit text).isEmpty with
  | true =>
    have hnil : pySplit text = [] := by simpa [List.isEmpty_iff] using hsp
    rw [hout, hsp]
    simp only [if_true]
    show add_line_breaks "" limit = ""
    rfl
  | false =>
    have hwsne : pySplit text ≠ [] := by
      intro hnil; rw [hnil] at hsp; simp at hsp
    rw [hout, hsp]
    simp only [Bool.false_eq_true, if_false]
    have hjoin1 : joinWords [joinWords (pySplit text)] = joinWords (pySplit text) := rfl
    rw [hjoin1]
    have hclean := splitAux_clean
    have hround : pySplit (joinWords (pySplit text)) = pySplit text :=
      pySplit_joinWords (pySplit text)
        (fun w hw => splitAux_clean text.data [] (by intro d hd; simp at hd) w hw)
    rw [add_line_breaks_eq, hround, h, hcl]
    simp only [List.map_nil, List.nil_append, hsp, Bool.false_eq_true, if_false]
    rfl

/-- Witness for the amended C3: at limit 120 the text `a b` fits one line
(no break is flushed), and wrapping is deterministic and idempotent on it. -/
theorem wrap_det_and_single_line_idem_witness :
    (wrapRun 120 (pySplit "a b")).result = []
    ∧ (add_line_breaks "a b" 120 = add_line_breaks "a b" 120
       ∧ add_line_breaks (add_line_breaks "a b" 120) 120
         = add_line_breaks "a b" 120) :=
  ⟨rfl, wrap_det_and_single_line_idem "a b" 120 rfl⟩

/-! ## Flattener: concrete scenario and hover selection -/

/-- Claim C8 (counterexample): masking the unfiltered scenario tree only
removes the children of the masked `div`; the sibling `p` branch is not
filtered away, so flattening yields 4 records, not the 3 the claim
asserts. -/
theorem claimC8_counterexample :
    ¬ ((flattenTree (mask_elements maskDiv default_mask_fn tree0)).map
        (fun r => r.label) = ["html", "body", "div"]) := by
  decide

/-- Claim C8 (amended): on the scenario tree, masking (without prior
filtering) with the `div` predicate and the default `maskText` annotates
the `div` with its full serialized markup and removes its element children;
flattening the masked tree yields exactly 4 records — `html`, `body`,
`div`, `p` — where the hoverText of `div` is that annotation wrapped at
120 characters. -/
theorem claimC8_amended :
    mask_elements maskDiv default_mask_fn tree0
      = .elem "html" [] [.elem "body" [] [
          .elem "div" [("id", "a"),
            ("el-mask", "<div id=\"a\"><span>x</span></div>")] [],
          .elem "p" [] [.text "y"]]]
    ∧ flattenTree (mask_elements maskDiv default_mask_fn tree0)
      = [⟨"html_0", "", "html", "\x7b\x7d"⟩,
         ⟨"body_1", "html_0", "body", "\x7b\x7d"⟩,
         ⟨"div_2", "body_1", "div",
           add_line_breaks "<div id=\"a\"><span>x</span></div>" 120⟩,
         ⟨"p_3", "body_1", "p", "\x7b\x7d"⟩] :=
  ⟨rfl, rfl⟩

/-- Claim C10: the flattener picks the hover text purely by the presence of
the `el-mask` key in the attribute mapping of the element — whenever the
key is bound (no matter whether the masker bound it, or it came with the
input HTML and the masker never matched the element or never ran), the
hoverText of the emitted record is the line-wrapped attribute value, not
the serialized attribute mapping. -/
theorem flattener_hover_by_attr_key (nm : String) (ats : List (String × String))
    (ch : List Node) (pid : String) (k : Nat) (v : String)
    (h : getAttr ats "el-mask" = some v) :
    (traverse (.elem nm ats ch) pid k).1.head?
      = some ⟨nodeIdOf nm k, pid, nm, add_line_breaks v 120⟩ := by
  have hexp : (traverse (.elem nm ats ch) pid k).1
      = ⟨nodeIdOf nm k, pid, nm,
          add_line_breaks (match getAttr ats "el-mask" with
            | some v2 => v2
            | none => dictStr ats)⟩
        :: (traverseList ch (nodeIdOf nm k) (k + 1)).1 := rfl
  rw [hexp, h]
  rfl

/-- Witness for C10: an `el-mask` attribute present in the input on a node
the masker never touched still selects the hover text. -/
theorem flattener_hover_by_attr_key_witness :
    getAttr [("el-mask", "secret")] "el-mask" = some "secret"
    ∧ (traverse (.elem "div" [("el-mask", "secret")] [.elem "span" [] []])
        "" 0).1.head?
      = some ⟨nodeIdOf "div" 0, "", "div", add_line_breaks "secret" 120⟩ :=
  ⟨rfl, flattener_hover_by_attr_key "div" [("el-mask", "secret")]
    [.elem "span" [] []] "" 0 "secret" rfl⟩

/-! ## Chart ids: injectivity of the id scheme -/

theorem natDigits_lt10 : ∀ (f n : Nat), ∀ d ∈ natDigits f n, d < 10 := by
  intro f
  induction f with
  | zero => intro n d hd; simp [natDigits] at hd
  | succ f ih =>
    intro n d hd
    simp only [natDigits] at hd
    by_cases hn : n < 10
    · rw [if_pos hn] at hd
      simp at hd
      omega
    · rw [if_neg hn] at hd
      rcases List.mem_cons.1 hd with rfl | hd
      · omega
      · exact ih (n / 10) d hd

theorem digitsVal_natDigits : ∀ (f n : Nat), n < f →
    digitsVal (natDigits f n) = n := by
  intro f
  induction f with
  | zero => intro n h; omega
  | succ f ih =>
    intro n h
    simp only [natDigits]
    by_cases hn : n < 10
    · rw [if_pos hn]
      simp [digitsVal]
    · rw [if_neg hn]
      simp only [digitsVal]
      have hd : n / 10 < f := by
        have h1 : n / 10 < n := Nat.div_lt_self (by omega) (by omega)
        omega
      rw [ih (n / 10) hd]
      omega

theorem digitCh_toNat : ∀ d : Nat, d < 10 → (digitCh d).toNat = 48 + d := by
  intro d hd
  interval_cases d <;> rfl

theorem digitCh_inj (d1 d2 : Nat) (h1 : d1 < 10) (h2 : d2 < 10)
    (h : digitCh d1 = digitCh d2) : d1 = d2 := by
  have := congrArg Char.toNat h
  rw [digitCh_toNat d1 h1, digitCh_toNat d2 h2] at this
  omega

theorem map_digitCh_inj : ∀ (l1 l2 : List Nat),
    (∀ d ∈ l1, d < 10) → (∀ d ∈ l2, d < 10) →
    l1.map digitCh = l2.map digitCh → l1 = l2 := by
  intro l1
  induction l1 with
  | nil =>
    intro l2 _ _ h
    cases l2 with
    | nil => rfl
    | cons y ys => simp at h
  | cons x xs ih =>
    intro l2 h1 h2 h
    cases l2 with
    | nil => simp at h
    | cons y ys =>
      simp only [List.map_cons, List.cons.injEq] at h
      have hx := digitCh_inj x y (h1 x (List.mem_cons_self x xs))
        (h2 y (List.mem_cons_self y ys)) h.1
      rw [hx, ih ys (fun d hd => h1 d (List.mem_cons_of_mem _ hd))
        (fun d hd => h2 d (List.mem_cons_of_mem _ hd)) h.2]

theorem natRepr_inj (k1 k2 : Nat) (h : natRepr k1 = natRepr k2) : k1 = k2 := by
  unfold natRepr at h
  have hdata : ((natDigits (k1 + 1) k1).map digitCh).reverse
      = ((natDigits (k2 + 1) k2).map digitCh).reverse := congrArg String.data h
  have hrev := List.reverse_injective hdata
  have hmap := map_digitCh_inj _ _ (natDigits_lt10 (k1 + 1) k1)
    (natDigits_lt10 (k2 + 1) k2) hrev
  have hv1 := digitsVal_natDigits (k1 + 1) k1 (by omega)
  have hv2 := digitsVal_natDigits (k2 + 1) k2 (by omega)
  rw [← hv1, ← hv2, hmap]

theorem digitCh_ne_underscore (d : Nat) (hd : d < 10) : digitCh d ≠ '_' := by
  interval_cases d <;> decide

theorem natRepr_no_underscore (k : Nat) : ∀ c ∈ (natRepr k).data, c ≠ '_' := by
  intro c hc
  have hc2 : c ∈ ((natDigits (k + 1) k).map digitCh).reverse := hc
  have hc3 := List.mem_reverse.1 hc2
  obtain ⟨d, hd, rfl⟩ := List.mem_map.1 hc3
  exact digitCh_ne_underscore d (natDigits_lt10 (k + 1) k d hd)

theorem marker_split : ∀ (s1 t1 s2 t2 : List Char),
    (∀ c ∈ s1, c ≠ '_') → (∀ c ∈ s2, c ≠ '_') →
    s1 ++ '_' :: t1 = s2 ++ '_' :: t2 → s1 = s2 ∧ t1 = t2 := by
  intro s1
  induction s1 with
  | nil =>
    intro t1 s2 t2 _ h2 heq
    cases s2 with
    | nil => simpa using heq
    | cons y ys =>
      exfalso
      simp only [List.nil_append, List.cons_append, List.cons.injEq] at heq
      exact h2 y (List.mem_cons_self y ys) heq.1.symm
  | cons x xs ih =>
    intro t1 s2 t2 h1 h2 heq
    cases s2 with
    | nil =>
      exfalso
      simp only [List.nil_append, List.cons_append, List.cons.injEq] at heq
      exact h1 x (List.mem_cons_self x xs) heq.1
    | cons y ys =>
      simp only [List.cons_append, List.cons.injEq] at heq
      obtain ⟨hxy, hrest⟩ := heq
      have := ih t1 ys t2 (fun c hc => h1 c (List.mem_cons_of_mem _ hc))
        (fun c hc => h2 c (List.mem_cons_of_mem _ hc)) hrest
      exact ⟨by rw [hxy, this.1], this.2⟩

theorem nodeIdOf_data (nm : String) (k : Nat) :
    (nodeIdOf nm k).data = nm.data ++ '_' :: (natRepr k).data := by
  unfold nodeIdOf
  rw [String.data_append, String.data_append]
  have h1 : ("_" : String).data = ['_'] := rfl
  rw [h1, List.append_assoc]
  rfl

theorem nodeIdOf_inj_counter (nm1 nm2 : String) (k1 k2 : Nat)
    (h : nodeIdOf nm1 k1 = nodeIdOf nm2 k2) : k1 = k2 := by
  have hd := congrArg String.data h
  rw [nodeIdOf_data, nodeIdOf_data] at hd
  have hrev := congrArg List.reverse hd
  rw [List.reverse_append, List.reverse_append, List.reverse_cons,
    List.reverse_cons, List.append_assoc, List.append_assoc] at hrev
  have hsplit := marker_split ((natRepr k1).data.reverse) (nm1.data.reverse)
    ((natRepr k2).data.reverse) (nm2.data.reverse)
    (fun c hc => natRepr_no_underscore k1 c (List.mem_reverse.1 hc))
    (fun c hc => natRepr_no_underscore k2 c (List.mem_reverse.1 hc))
    (by simpa using hrev)
  have hdat : (natRepr k1).data = (natRepr k2).data :=
    List.reverse_injective hsplit.1
  have heq : natRepr k1 = natRepr k2 := by
    cases hh1 : natRepr k1 with
    | mk l1 =>
      cases hh2 : natRepr k2 with
      | mk l2 =>
        rw [hh1, hh2] at hdat
        simp only [] at hdat
        rw [show l1 = (String.mk l1).data from rfl,
          show l2 = (String.mk l2).data from rfl] at hdat
        exact congrArg String.mk hdat
  exact natRepr_inj k1 k2 heq

theorem nodeIdOf_ne_empty (nm : String) (k : Nat) : nodeIdOf nm k ≠ "" := by
  intro h
  have hd := congrArg String.data h
  rw [nodeIdOf_data] at hd
  have : (nm.data ++ '_' :: (natRepr k).data).length = 0 := by
    rw [hd]; rfl
  simp at this

/-! ## Flattener: pre-order and uniqueness -/

theorem traverse_text_eq (s : String) (pid : String) (k : Nat) :
    traverse (.text s) pid k = ([], k) := rfl

theorem traverse_elem_eq (nm : String) (ats : List (String × String))
    (ch : List Node) (pid : String) (k : Nat) :
    traverse (.elem nm ats ch) pid k
      = (⟨nodeIdOf nm k, pid, nm,
          add_line_breaks (match getAttr ats "el-mask" with
            | some v => v
            | none => dictStr ats)⟩
          :: (traverseList ch (nodeIdOf nm k) (k + 1)).1,
        (traverseList ch (nodeIdOf nm k) (k + 1)).2) := rfl

theorem traverseList_nil_eq (pid : String) (k : Nat) :
    traverseList [] pid k = ([], k) := rfl

theorem traverseList_cons_eq (c : Node) (cs : List Node) (pid : String) (k : Nat) :
    traverseList (c :: cs) pid k
      = ((traverse c pid k).1 ++ (traverseList cs pid (traverse c pid k).2).1,
         (traverseList cs pid (traverse c pid k).2).2) := rfl

theorem traverseList_snd (cs : List Node)
    (ih : ∀ c ∈ cs, ∀ pid k, (traverse c pid k).2 = k + (traverse c pid k).1.length) :
    ∀ pid k, (traverseList cs pid k).2 = k + (traverseList cs pid k).1.length := by
  induction cs with
  | nil => intro pid k; rw [traverseList_nil_eq]; simp
  | cons c cs ihl =>
    intro pid k
    rw [traverseList_cons_eq]
    show (traverseList cs pid (traverse c pid k).2).2
      = k + ((traverse c pid k).1 ++ (traverseList cs pid (traverse c pid k).2).1).length
    rw [ihl (fun d hd => ih d (List.mem_cons_of_mem _ hd)) pid ((traverse c pid k).2),
      ih c (List.mem_cons_self c cs) pid k, List.length_append]
    omega

theorem traverse_snd : ∀ (n : Node) (pid : String) (k : Nat),
    (traverse n pid k).2 = k + (traverse n pid k).1.length := by
  intro n
  induction n using node_ind with
  | ht s => intro pid k; rw [traverse_text_eq]; simp
  | he nm ats ch ih =>
    intro pid k
    rw [traverse_elem_eq]
    show (traverseList ch (nodeIdOf nm k) (k + 1)).2 = k + (_ :: _).length
    rw [traverseList_snd ch ih (nodeIdOf nm k) (k + 1), List.length_cons]
    omega

theorem traverseList_snd2 (cs : List Node) (pid : String) (k : Nat) :
    (traverseList cs pid k).2 = k + (traverseList cs pid k).1.length :=
  traverseList_snd cs (fun c _ => traverse_snd c) pid k

theorem traverseList_id_mem (cs : List Node)
    (ih : ∀ c ∈ cs, ∀ pid k r, r ∈ (traverse c pid k).1 →
      ∃ nm2 j, r.id = nodeIdOf nm2 j ∧ k ≤ j ∧ j < (traverse c pid k).2) :
    ∀ pid k r, r ∈ (traverseList cs pid k).1 →
      ∃ nm2 j, r.id = nodeIdOf nm2 j ∧ k ≤ j ∧ j < (traverseList cs pid k).2 := by
  induction cs with
  | nil => intro pid k r hr; rw [traverseList_nil_eq] at hr; simp at hr
  | cons c cs ihl =>
    intro pid k r hr
    rw [traverseList_cons_eq] at hr ⊢
    have hkc : (traverse c pid k).2 = k + (traverse c pid k).1.length :=
      traverse_snd c pid k
    have hq := traverseList_snd2 cs pid (traverse c pid k).2
    rcases List.mem_append.1 hr with hr | hr
    · obtain ⟨nm2, j, hid, hkj, hjlt⟩ := ih c (List.mem_cons_self c cs) pid k r hr
      exact ⟨nm2, j, hid, hkj, by omega⟩
    · obtain ⟨nm2, j, hid, hkj, hjlt⟩ :=
        ihl (fun d hd => ih d (List.mem_cons_of_mem _ hd))
          pid (traverse c pid k).2 r hr
      exact ⟨nm2, j, hid, by omega, hjlt⟩

theorem traverse_id_mem : ∀ (n : Node) (pid : String) (k : Nat) (r : ChartRecord),
    r ∈ (traverse n pid k).1 →
    ∃ nm2 j, r.id = nodeIdOf nm2 j ∧ k ≤ j ∧ j < (traverse n pid k).2 := by
  intro n
  induction n using node_ind with
  | ht s => intro pid k r hr; rw [traverse_text_eq] at hr; simp at hr
  | he nm ats ch ih =>
    intro pid k r hr
    rw [traverse_elem_eq] at hr ⊢
    have hq := traverseList_snd2 ch (nodeIdOf nm k) (k + 1)
    rcases List.mem_cons.1 hr with rfl | hr
    · exact ⟨nm, k, rfl, Nat.le_refl k, by omega⟩
    · obtain ⟨nm2, j, hid, hkj, hjlt⟩ :=
        traverseList_id_mem ch ih (nodeIdOf nm k) (k + 1) r hr
      exact ⟨nm2, j, hid, by omega, hjlt⟩

theorem traverseList_nodup (cs : List Node)
    (ih : ∀ c ∈ cs, ∀ pid k, ((traverse c pid k).1.map (fun r => r.id)).Nodup) :
    ∀ pid k, ((traverseList cs pid k).1.map (fun r => r.id)).Nodup := by
  induction cs with
  | nil => intro pid k; rw [traverseList_nil_eq]; simp
  | cons c cs ihl =>
    intro pid k
    rw [traverseList_cons_eq]
    show (((traverse c pid k).1 ++ _).map (fun r => r.id)).Nodup
    rw [List.map_append, List.nodup_append]
    refine ⟨ih c (List.mem_cons_self c cs) pid k,
      ihl (fun d hd => ih d (List.mem_cons_of_mem _ hd)) pid (traverse c pid k).2,
      ?_⟩
    intro a ha hb
    obtain ⟨r1, hr1, hid1⟩ := List.mem_map.1 ha
    obtain ⟨r2, hr2, hid2⟩ := List.mem_map.1 hb
    obtain ⟨nm1, j1, he1, _, hlt1⟩ := traverse_id_mem c pid k r1 hr1
    obtain ⟨nm2, j2, he2, hge2, _⟩ :=
      traverseList_id_mem cs (fun d _ => traverse_id_mem d)
        pid (traverse c pid k).2 r2 hr2
    have : nodeIdOf nm1 j1 = nodeIdOf nm2 j2 := by
      rw [← he1, ← he2, hid1, hid2]
    have := nodeIdOf_inj_counter nm1 nm2 j1 j2 this
    omega

theorem traverse_nodup : ∀ (n : Node) (pid : String) (k : Nat),
    ((traverse n pid k).1.map (fun r => r.id)).Nodup := by
  intro n
  induction n using node_ind with
  | ht s => intro pid k; rw [traverse_text_eq]; simp
  | he nm ats ch ih =>
    intro pid k
    rw [traverse_elem_eq]
    show ((_ :: (traverseList ch (nodeIdOf nm k) (k + 1)).1).map
      (fun r => r.id)).Nodup
    rw [List.map_cons, List.nodup_cons]
    constructor
    · intro hmem
      obtain ⟨r, hr, hid⟩ := List.mem_map.1 hmem
      obtain ⟨nm2, j, he2, hge, _⟩ :=
        traverseList_id_mem ch (fun d _ => traverse_id_mem d)
          (nodeIdOf nm k) (k + 1) r hr
      have : nodeIdOf nm2 j = nodeIdOf nm k := by rw [← he2, hid]
      have := nodeIdOf_inj_counter nm2 nm j k this
      omega
    · exact traverseList_nodup ch ih (nodeIdOf nm k) (k + 1)

theorem pushIds_cons (r : ChartRecord) (L : List ChartRecord) (seen : List String) :
    pushIds (r :: L) seen = pushIds L (r.id :: seen) := rfl

theorem mem_pushIds (L : List ChartRecord) : ∀ (seen : List String) (x : String),
    x ∈ seen → x ∈ pushIds L seen := by
  induction L with
  | nil => intro seen x h; exact h
  | cons r L ih =>
    intro seen x h
    rw [pushIds_cons]
    exact ih _ x (List.mem_cons_of_mem _ h)

theorem parentsOK_append : ∀ (L1 L2 : List ChartRecord) (seen : List String),
    parentsOK L1 seen = true → parentsOK L2 (pushIds L1 seen) = true →
    parentsOK (L1 ++ L2) seen = true := by
  intro L1
  induction L1 with
  | nil => intro L2 seen _ h2; exact h2
  | cons r L1 ih =>
    intro L2 seen h1 h2
    simp only [List.cons_append, parentsOK, Bool.and_eq_true] at h1 ⊢
    exact ⟨h1.1, ih L2 (r.id :: seen) h1.2 h2⟩

theorem traverseList_parentsOK (cs : List Node)
    (ih : ∀ c ∈ cs, ∀ pid k seen, pid ∈ seen →
      parentsOK (traverse c pid k).1 seen = true) :
    ∀ pid k seen, pid ∈ seen →
      parentsOK (traverseList cs pid k).1 seen = true := by
  induction cs with
  | nil => intro pid k seen _; rfl
  | cons c cs ihl =>
    intro pid k seen hpid
    rw [traverseList_cons_eq]
    exact parentsOK_append _ _ _ (ih c (List.mem_cons_self c cs) pid k seen hpid)
      (ihl (fun d hd => ih d (List.mem_cons_of_mem _ hd))
        pid (traverse c pid k).2 _ (mem_pushIds _ _ _ hpid))

theorem traverse_parentsOK : ∀ (n : Node) (pid : String) (k : Nat)
    (seen : List String), pid ∈ seen →
    parentsOK (traverse n pid k).1 seen = true := by
  intro n
  induction n using node_ind with
  | ht s => intro pid k seen _; rfl
  | he nm ats ch ih =>
    intro pid k seen hpid
    rw [traverse_elem_eq]
    simp only [parentsOK, Bool.and_eq_true, decide_eq_true_eq]
    exact ⟨hpid, traverseList_parentsOK ch ih (nodeIdOf nm k) (k + 1)
      (nodeIdOf nm k :: seen) (List.mem_cons_self _ _)⟩

theorem traverseList_parent_ne (cs : List Node)
    (ih : ∀ c ∈ cs, ∀ pid k, pid ≠ "" →
      ∀ r ∈ (traverse c pid k).1, r.parentId ≠ "") :
    ∀ pid k, pid ≠ "" → ∀ r ∈ (traverseList cs pid k).1, r.parentId ≠ "" := by
  induction cs with
  | nil => intro pid k _ r hr; rw [traverseList_nil_eq] at hr; simp at hr
  | cons c cs ihl =>
    intro pid k hpid r hr
    rw [traverseList_cons_eq] at hr
    rcases List.mem_append.1 hr with hr | hr
    · exact ih c (List.mem_cons_self c cs) pid k hpid r hr
    · exact ihl (fun d hd => ih d (List.mem_cons_of_mem _ hd))
        pid (traverse c pid k).2 hpid r hr

theorem traverse_parent_ne : ∀ (n : Node) (pid : String) (k : Nat),
    pid ≠ "" → ∀ r ∈ (traverse n pid k).1, r.parentId ≠ "" := by
  intro n
  induction n using node_ind with
  | ht s => intro pid k _ r hr; rw [traverse_text_eq] at hr; simp at hr
  | he nm ats ch ih =>
    intro pid k hpid r hr
    rw [traverse_elem_eq] at hr
    rcases List.mem_cons.1 hr with rfl | hr
    · exact hpid
    · exact traverseList_parent_ne ch ih (nodeIdOf nm k) (k + 1)
        (nodeIdOf_ne_empty nm k) r hr

/-- Claim C7: the flattener output is a pre-order record sequence whose
ids are pairwise distinct, in which the parentId of every record is either
the empty string — and that only for the first (root) record — or the id
of a record emitted strictly earlier (`parentsOK` walks the sequence and
only accepts a parentId already seen). -/
theorem flattener_preorder_unique (n : Node) :
    ((flattenTree n).map (fun r => r.id)).Nodup
    ∧ parentsOK (flattenTree n) [""] = true
    ∧ (∀ r, (flattenTree n).head? = some r → r.parentId = "")
    ∧ (∀ r ∈ (flattenTree n).tail, r.parentId ≠ "") := by
  unfold flattenTree
  refine ⟨traverse_nodup n "" 0,
    traverse_parentsOK n "" 0 [""] (List.mem_cons_self _ _), ?_, ?_⟩
  · cases n with
    | text s => intro r hr; rw [traverse_text_eq] at hr; simp at hr
    | elem nm ats ch =>
      intro r hr
      rw [traverse_elem_eq] at hr
      simp only [List.head?_cons, Option.some.injEq] at hr
      rw [← hr]
  · cases n with
    | text s => intro r hr; rw [traverse_text_eq] at hr; simp at hr
    | elem nm ats ch =>
      intro r hr
      rw [traverse_elem_eq] at hr
      simp only [List.tail_cons] at hr
      exact traverseList_parent_ne ch (fun c _ => traverse_parent_ne c)
        (nodeIdOf nm 0) 1 (nodeIdOf_ne_empty nm 0) r hr

/-- Witness for C7 at the spec scenario tree: the ids are distinct, every
parentId is previously emitted, the root record has the empty parentId and
the second record does not. -/
theorem flattener_preorder_unique_witness :
    (((flattenTree tree0).map (fun r => r.id)).Nodup
      ∧ parentsOK (flattenTree tree0) [""] = true)
    ∧ (⟨"html_0", "", "html", "\x7b\x7d"⟩ : ChartRecord).parentId = ""
    ∧ (⟨"body_1", "html_0", "body", "\x7b\x7d"⟩ : ChartRecord).parentId ≠ "" :=
  ⟨⟨(flattener_preorder_unique tree0).1, (flattener_preorder_unique tree0).2.1⟩,
   (flattener_preorder_unique tree0).2.2.1 ⟨"html_0", "", "html", "\x7b\x7d"⟩ rfl,
   (flattener_preorder_unique tree0).2.2.2 ⟨"body_1", "html_0", "body", "\x7b\x7d"⟩
     (by decide)⟩
